import Mathlib

/-!
Shallow embedding of `src/rw.c` (Rabin–Williams signing with Bleichenbacher
signature compression, benchmark program).

Conventions of the embedding:

* GMP `mpz_t` values are modelled as `ℤ`.  All divisors and moduli that the
  program uses are positive, and for a positive divisor GMP floor division
  (`mpz_fdiv_qr`) agrees with Lean `Int` division `/` and `%` (Euclidean:
  remainder in `[0, divisor)`), and GMP `mpz_mod` likewise returns the
  non-negative representative.
* `mpz_powm` is used by the program only with non-negative exponents, so it is
  modelled as `b ^ e.toNat % m`.
* GMP raises SIGFPE when `mpz_fdiv_qr` is called with divisor zero; the
  compression loop is therefore modelled as a fuel-indexed function returning
  `CResult`, where `CResult.divzero` is that abort and `CResult.timeout` is
  the fuel running out (a modelling artifact only).
* The randomness source and the probabilistic primality test are external
  collaborators (spec §1); they are parameters (`outcome`/`data` streams and
  an `isPrime : ℕ → Bool` oracle) of the functions that use them.
-/

/-- GMP `mpz_powm b e m` for the non-negative exponents the program uses. -/
def mpz_powm (b e m : ℤ) : ℤ := b ^ e.toNat % m

/-- GMP `mpz_cdiv_q_2exp a k`: ceiling division of `a` by `2^k`. -/
def mpz_cdiv_q_2exp (a : ℤ) (k : ℕ) : ℤ := -(-a / 2 ^ k)

/-- GMP `mpz_sqrt`: integer square root (used on non-negative inputs only). -/
def mpz_sqrt (n : ℤ) : ℤ := Int.sqrt n

/-- rw.c lines 113-132: return non-zero iff `e` is a quadratic residue mod `p`,
where `power` is the precomputed exponent `(p+1)/4`.  Computes
`r = e^power mod p` and tests `r*r ≡ e (mod p)`. -/
def is_quadratic_residue (e p power : ℤ) : Bool :=
  let emod := e % p
  let r := mpz_powm e power p
  decide (r * r % p = emod)

/-- rw.c lines 221-242 (the tweak block of `main`): given the residue pair
`(a, b)` of `e` with respect to `p` and `q`, multiply by 2 when `a ≠ b`
(flipping `a`), then negate when the updated `a` is false, and reduce mod `n`
when any transform was applied. -/
def residue_tweak (n e : ℤ) (a b : Bool) : ℤ :=
  let mul_2 := a != b
  let a2 := if a != b then !a else a
  let negate := !a2
  let e1 := if negate then -e else e
  let e2 := if mul_2 then 2 * e1 else e1
  if negate || mul_2 then e2 % n else e2

/-- Modelled from the spec (§4.2): the routine `xgcd` called at rw.c line 202
is not present in `src/`; per the spec it runs the extended GCD on `(p, q)`
and returns Bézout coefficients `(u0, v0)` with `u0*p + v0*q = gcd p q`
(`= 1` for the distinct primes the program uses). -/
def xgcd (p q : ℤ) : ℤ × ℤ := (Nat.gcdA p.natAbs q.natAbs, Nat.gcdB p.natAbs q.natAbs)

/-- rw.c lines 195-204 (Group Builder): `n = p*q`, and the CRT coefficients
`u = u0*p`, `v = v0*q` built from the Bézout coefficients of `xgcd`. -/
def group_build (p q : ℤ) : ℤ × ℤ × ℤ :=
  (p * q, (xgcd p q).1 * p, (xgcd p q).2 * q)

/-- rw.c lines 252-278 (Root Extractor): per-prime roots
`proot = e^((p+1)/4) mod p`, `qroot = e^((q+1)/4) mod q` (the exponents are
built with `mpz_cdiv_q_2exp`), sign selection from the two low bits of
`root`, and CRT recombination `(proot*v + qroot*u) mod n`. -/
def root_extract (e p q u v n : ℤ) (root : ℕ) : ℤ :=
  let pp1over4 := mpz_cdiv_q_2exp (p + 1) 2
  let qp1over4 := mpz_cdiv_q_2exp (q + 1) 2
  let proot := mpz_powm e pp1over4 p
  let qroot := mpz_powm e qp1over4 q
  let proot2 := if root &&& 1 ≠ 0 then -proot else proot
  let qroot2 := if root &&& 2 ≠ 0 then -qroot else qroot
  (proot2 * v + qroot2 * u) % n

/-- Result of the compression loop.  `out zsig s n` carries the returned
compressed signature together with the final values of the two in-out
`mpz_t` arguments `s` and `n` (the loop overwrites both with Euclidean
remainders).  `divzero` is the SIGFPE GMP raises on a zero divisor;
`timeout` only means the modelling fuel ran out. -/
inductive CResult where
  | out (zsig s n : ℤ)
  | divzero
  | timeout
deriving DecidableEq

/-- The rotating 4-slot convergent buffer `mpz_t vs[4]`, read at index
`i & 3`. -/
def vsget (vs : ℤ × ℤ × ℤ × ℤ) (i : ℕ) : ℤ :=
  if i % 4 = 0 then vs.1
  else if i % 4 = 1 then vs.2.1
  else if i % 4 = 2 then vs.2.2.1
  else vs.2.2.2

/-- Write slot `i & 3` of the 4-slot convergent buffer. -/
def vsset (vs : ℤ × ℤ × ℤ × ℤ) (i : ℕ) (x : ℤ) : ℤ × ℤ × ℤ × ℤ :=
  if i % 4 = 0 then (x, vs.2.1, vs.2.2.1, vs.2.2.2)
  else if i % 4 = 1 then (vs.1, x, vs.2.2.1, vs.2.2.2)
  else if i % 4 = 2 then (vs.1, vs.2.1, x, vs.2.2.2)
  else (vs.1, vs.2.1, vs.2.2.1, x)

/-- rw.c lines 157-172, the do-while loop of `signature_compress`.  Each
iteration advances `i = (i+1) & 3`, performs one Euclidean division (of `s`
by `n` when `i` is odd, of `n` by `s` when `i` is even — the C unsigned
`(i-1) & 3` and `(i-2) & 3` are `(i+3) % 4` and `(i+2) % 4`), pushes the new
convergent `vs[i] = vs[i-1]*cf + vs[i-2]`, and loops while `vs[i] < root`.
On exit it returns `vs[(i-1) & 3]` along with the final `s` and `n`. -/
def compress_go (root : ℤ) : ℕ → ℤ × ℤ × ℤ × ℤ → ℤ → ℤ → ℕ → CResult
  | 0, _, _, _, _ => .timeout
  | fuel + 1, vs, s, n, i =>
    let j := (i + 1) % 4
    if j % 2 = 1 then
      if n = 0 then .divzero else
      let cf := s / n
      let s2 := s % n
      let vj := vsget vs ((j + 3) % 4) * cf + vsget vs ((j + 2) % 4)
      let vs2 := vsset vs j vj
      if vj < root then compress_go root fuel vs2 s2 n j
      else .out (vsget vs2 ((j + 3) % 4)) s2 n
    else
      if s = 0 then .divzero else
      let cf := n / s
      let n2 := n % s
      let vj := vsget vs ((j + 3) % 4) * cf + vsget vs ((j + 2) % 4)
      let vs2 := vsset vs j vj
      if vj < root then compress_go root fuel vs2 s n2 j
      else .out (vsget vs2 ((j + 3) % 4)) s n2

/-- rw.c lines 142-180, `signature_compress`: initialize `vs = (0, 1, 0, 0)`,
`root = isqrt n` (computed once, before the loop), `i = 1`, then run the
loop. -/
def signature_compress (fuel : ℕ) (s n : ℤ) : CResult :=
  compress_go (mpz_sqrt n) fuel (0, 1, 0, 0) s n 1

/-- rw.c lines 300-312, the body of one verification iteration:
`z = zsig*zsig*e mod n` must be non-zero (first abort) and must be a perfect
square, checked with `mpz_sqrtrem` leaving remainder zero (second abort).
Returns `false` when the program would abort. -/
def verify_once (zsig e n : ℤ) : Bool :=
  let z := zsig * zsig * e % n
  if z = 0 then false
  else decide (z - Int.sqrt z * Int.sqrt z = 0)

/-- rw.c lines 297-312: the whole benchmark loop of `k` verification
iterations; `true` iff no iteration aborts. -/
def verify_loop (zsig e n : ℤ) : ℕ → Bool
  | 0 => true
  | k + 1 => verify_once zsig e n && verify_loop zsig e n k

/-- Outcome of one `read` call on the randomness source: the full requested
buffer arrived, or the call was interrupted (`r == -1 && errno == EINTR`),
or it failed / returned short for any other reason. -/
inductive ReadRes where
  | ok
  | eintr
  | fail
deriving DecidableEq

/-- rw.c lines 48-56 and 95-102: the checked read pattern used for the two
prime-generation reads and the element-sampling read.  `outcome k` is the
result of the `k`-th `read` call and `data k` the value imported from the
buffer it filled.  Interrupted calls are retried; any other failure is the
`abort()` (`none`).  `fuel` bounds the retries (modelling artifact). -/
def retry_read (outcome : ℕ → ReadRes) (data : ℕ → ℕ) : ℕ → ℕ → Option (ℕ × ℕ)
  | _, 0 => none
  | k, fuel + 1 =>
    match outcome k with
    | .eintr => retry_read outcome data (k + 1) fuel
    | .ok => some (data k, k + 1)
    | .fail => none

/-- rw.c lines 246-248: `read(urfd, &root, 1); root &= 3;`.  The return value
of this read is not inspected at all: on an interrupted or failed read the
stack byte keeps whatever (stale) value it held and execution continues. -/
def root_read (outcome : ℕ → ReadRes) (data : ℕ → ℕ) (stale : ℕ) (k : ℕ) : ℕ :=
  (match outcome k with
   | .ok => data k
   | _ => stale) &&& 3

/-- GMP `mpz_setbit n b` (set bit `b`), stated arithmetically. -/
def mpz_setbit (n b : ℕ) : ℕ := if n / 2 ^ b % 2 = 1 then n else n + 2 ^ b

/-- GMP `mpz_clrbit n b` (clear bit `b`), stated arithmetically. -/
def mpz_clrbit (n b : ℕ) : ℕ := if n / 2 ^ b % 2 = 1 then n - 2 ^ b else n

/-- rw.c lines 59-71: force bit 0 set and bits 1-2 of the candidate to the
corresponding bits of `mod8`. -/
def force_bits (x mod8 : ℕ) : ℕ :=
  let n0 := mpz_setbit x 0
  let n1 := if mod8 &&& 2 ≠ 0 then mpz_setbit n0 1 else mpz_clrbit n0 1
  if mod8 &&& 4 ≠ 0 then mpz_setbit n1 2 else mpz_clrbit n1 2

/-- rw.c lines 38-76, `init_random_prime`: repeatedly draw a candidate from
the randomness source (`data k` is the big-endian import of the `k`-th
successful read; interrupted reads retry, any other failure aborts), force
its low bits, and accept the first candidate passing the primality oracle
`isPrime` (modelling `mpz_probab_prime_p(n, 10)`).  `fuel` bounds the
number of `read` calls (modelling artifact). -/
def init_random_prime (isPrime : ℕ → Bool) (outcome : ℕ → ReadRes) (data : ℕ → ℕ)
    (mod8 : ℕ) : ℕ → ℕ → Option ℕ
  | _, 0 => none
  | k, fuel + 1 =>
    match outcome k with
    | .eintr => init_random_prime isPrime outcome data mod8 (k + 1) fuel
    | .fail => none
    | .ok =>
      let n := force_bits (data k) mod8
      if isPrime n then some n
      else init_random_prime isPrime outcome data mod8 (k + 1) fuel

/-- Spec-side predicate (glossary): `e` is a quadratic residue mod `p` iff
some `x` satisfies `x*x ≡ e (mod p)`. -/
def isQR (e p : ℤ) : Prop := ∃ x : ℤ, x * x % p = e % p

/-! ### Generic helper lemmas -/

lemma vsget_congr (vs : ℤ × ℤ × ℤ × ℤ) {i k : ℕ} (h : i % 4 = k % 4) :
    vsget vs i = vsget vs k := by
  simp only [vsget, h]

lemma vsget_vsset_self (vs : ℤ × ℤ × ℤ × ℤ) (i : ℕ) (x : ℤ) :
    vsget (vsset vs i x) i = x := by
  have hi : i % 4 = 0 ∨ i % 4 = 1 ∨ i % 4 = 2 ∨ i % 4 = 3 := by omega
  rcases hi with h | h | h | h <;> simp [vsget, vsset, h]

lemma vsget_vsset_ne (vs : ℤ × ℤ × ℤ × ℤ) {i k : ℕ} (h : i % 4 ≠ k % 4) (x : ℤ) :
    vsget (vsset vs i x) k = vsget vs k := by
  have hi : i % 4 = 0 ∨ i % 4 = 1 ∨ i % 4 = 2 ∨ i % 4 = 3 := by omega
  have hk : k % 4 = 0 ∨ k % 4 = 1 ∨ k % 4 = 2 ∨ k % 4 = 3 := by omega
  rcases hi with h1 | h1 | h1 | h1 <;> rcases hk with h2 | h2 | h2 | h2 <;>
    first
      | exact absurd (h1.trans h2.symm) h
      | simp [vsget, vsset, h1, h2]

lemma int_emod_le_self {s n : ℤ} (hs : 0 ≤ s) (hn : 0 < n) : s % n ≤ s := by
  rcases lt_or_le s n with h | h
  · rw [Int.emod_eq_of_lt hs h]
  · exact le_trans (Int.emod_lt_of_pos s hn).le h

lemma int_sqrt_le_self {n : ℤ} (hn : 0 ≤ n) : Int.sqrt n ≤ n := by
  unfold Int.sqrt
  have h1 := Nat.sqrt_le_self n.toNat
  omega

lemma two_le_int_sqrt {n : ℤ} (hn : 4 ≤ n) : 2 ≤ Int.sqrt n := by
  unfold Int.sqrt
  have h1 : 2 ≤ Nat.sqrt n.toNat := Nat.le_sqrt.mpr (by omega)
  omega

/-! ### The compression loop: exit bound and mutation of `s` -/

lemma compress_go_out_lt (root : ℤ) :
    ∀ (fuel : ℕ) (vs : ℤ × ℤ × ℤ × ℤ) (s n : ℤ) (i : ℕ) (z a b : ℤ),
      vsget vs i < root → compress_go root fuel vs s n i = CResult.out z a b →
      z < root := by
  intro fuel
  induction fuel with
  | zero => intro vs s n i z a b _ h; simp [compress_go] at h
  | succ fuel ih =>
    intro vs s n i z a b hlt h
    simp only [compress_go] at h
    split_ifs at h
    all_goals first
      | exact CResult.noConfusion h
      | exact ih _ _ _ _ _ _ _ (by rw [vsget_vsset_self]; assumption) h
      | (injection h with hz ha hb
         rw [← hz, vsget_vsset_ne _ (by omega) _,
           vsget_congr vs (show ((i + 1) % 4 + 3) % 4 % 4 = i % 4 by omega)]
         exact hlt)

/-- Claim C3 (amended: for `n ≥ 4`; for `n ∈ {2, 3}` the loop can exit on its
first iteration returning `vs[1] = 1 = isqrt n`): whenever `signature_compress`
returns, the returned `zsig` is strictly below the integer square root of the
original `n` — the loop exits as soon as the newest convergent reaches
`isqrt n` (computed once before the loop) and returns the previous ring slot,
which was itself tested against the root (or is the initial `1`). -/
theorem c3_zsig_lt_isqrt (fuel : ℕ) (s n z a b : ℤ) (hn : 4 ≤ n)
    (h : signature_compress fuel s n = CResult.out z a b) : z < mpz_sqrt n := by
  have h1 : vsget (0, 1, 0, 0) 1 < mpz_sqrt n := by
    have h2 := two_le_int_sqrt hn
    simp only [mpz_sqrt, vsget]
    norm_num
    omega
  exact compress_go_out_lt (mpz_sqrt n) fuel _ s n 1 z a b h1 h

theorem c3_witness :
    signature_compress 10 16 21 = CResult.out 1 1 5 ∧ (1 : ℤ) < mpz_sqrt 21 := by
  have hs : mpz_sqrt 21 = 4 := by unfold mpz_sqrt; norm_num
  have hc : signature_compress 10 16 21 = CResult.out 1 1 5 := by
    unfold signature_compress
    rw [hs]
    decide
  exact ⟨hc, c3_zsig_lt_isqrt 10 16 21 1 1 5 (by norm_num) hc⟩

theorem c3_counterexample :
    signature_compress 9 1 2 = CResult.out 1 1 0 ∧ ¬((1 : ℤ) < mpz_sqrt 2) := by
  have hs : mpz_sqrt 2 = 1 := by unfold mpz_sqrt; norm_num
  constructor
  · unfold signature_compress
    rw [hs]
    decide
  · rw [hs]
    norm_num

lemma compress_go_s_le (root : ℤ) :
    ∀ (fuel : ℕ) (vs : ℤ × ℤ × ℤ × ℤ) (s n : ℤ) (i : ℕ) (z a b : ℤ),
      0 ≤ s → 0 ≤ n → compress_go root fuel vs s n i = CResult.out z a b →
      a ≤ s ∧ 0 ≤ a := by
  intro fuel
  induction fuel with
  | zero => intro vs s n i z a b _ _ h; simp [compress_go] at h
  | succ fuel ih =>
    intro vs s n i z a b hs hn h
    simp only [compress_go] at h
    split_ifs at h
    all_goals first
      | exact CResult.noConfusion h
      | exact ih _ _ _ _ _ _ _ hs (Int.emod_nonneg n (by omega)) h
      | (obtain ⟨q1, q2⟩ := ih _ _ _ _ _ _ _ (Int.emod_nonneg s (by omega)) hn h
         exact ⟨le_trans q1 (int_emod_le_self hs (by omega)), q2⟩)
      | (injection h with hz ha hb
         rw [← ha]
         refine ⟨?_, ?_⟩
         · first
             | exact int_emod_le_self hs (by omega)
             | exact le_refl s
         · first
             | exact Int.emod_nonneg s (by omega)
             | exact hs)

/-- Claim C8 (amended: `signature_compress` does mutate its in-out signature
argument `s` — the odd-step divisions overwrite it with Euclidean remainders,
so the final value never exceeds, and in general is strictly below, the
original; `main` copies only `n` before the call and never reads `s` again
afterwards).  Stated: any completed run leaves the signature argument at a
value `≤` its original. -/
theorem c8_compress_mutates_s (fuel : ℕ) (s n z a b : ℤ)
    (hs : 0 ≤ s) (hn : 0 ≤ n)
    (h : signature_compress fuel s n = CResult.out z a b) : a ≤ s :=
  (compress_go_s_le (mpz_sqrt n) fuel _ s n 1 z a b hs hn h).1

theorem c8_witness :
    signature_compress 10 16 21 = CResult.out 1 1 5 ∧ (1 : ℤ) ≤ 16 := by
  have hs : mpz_sqrt 21 = 4 := by unfold mpz_sqrt; norm_num
  have hc : signature_compress 10 16 21 = CResult.out 1 1 5 := by
    unfold signature_compress
    rw [hs]
    decide
  exact ⟨hc, c8_compress_mutates_s 10 16 21 1 1 5 (by norm_num) (by norm_num) hc⟩

theorem c8_counterexample :
    (-2 : ℤ) * 3 + 1 * 7 = 1 ∧
    root_extract 4 3 7 ((-2) * 3) (1 * 7) 21 0 = 16 ∧
    signature_compress 10 16 21 = CResult.out 1 1 5 ∧ (1 : ℤ) ≠ 16 := by
  have hs : mpz_sqrt 21 = 4 := by unfold mpz_sqrt; norm_num
  refine ⟨by norm_num, by decide, ?_, by norm_num⟩
  unfold signature_compress
  rw [hs]
  decide

lemma verify_loop_succ_false {zsig e n : ℤ} (h : verify_once zsig e n = false)
    (k : ℕ) : verify_loop zsig e n (k + 1) = false := by
  show (verify_once zsig e n && verify_loop zsig e n k) = false
  rw [h]
  simp

/-- Claim C2 (code bug): a full-pipeline instance on which the verification
quantity is NOT a perfect square, so the program aborts inside its own
verification loop.  With p = 3 (≡ 3 mod 8), q = 31 (≡ 7 mod 8), n = 93,
sampled e = 7 (a quadratic residue mod both primes, so the tweaker leaves it
unchanged), root bits 0, and the Bézout coefficients u0 = -10, v0 = 1 of the
Group Builder, the signature is 10.  The compression loop exits on its very
first iteration with newest convergent 9 = isqrt 93 (the stop test uses `≥`,
not `>`), returns zsig = 1, and `zsig*zsig*e mod n = 7` is not a perfect
square: `verify_once` is false and the 1000000-iteration loop aborts. -/
theorem c2_verification_fails :
    is_quadratic_residue 7 3 (mpz_cdiv_q_2exp (3 + 1) 2) = true ∧
    is_quadratic_residue 7 31 (mpz_cdiv_q_2exp (31 + 1) 2) = true ∧
    residue_tweak (3 * 31) 7 true true = 7 ∧
    (-10 : ℤ) * 3 + 1 * 31 = 1 ∧
    root_extract 7 3 31 ((-10) * 3) (1 * 31) 93 0 = 10 ∧
    signature_compress 200 10 93 = CResult.out 1 10 3 ∧
    verify_once 1 7 93 = false ∧
    verify_loop 1 7 93 1000000 = false := by
  have h93 : mpz_sqrt 93 = 9 := by unfold mpz_sqrt; norm_num
  have h7 : Int.sqrt 7 = 2 := by norm_num
  have hv : verify_once 1 7 93 = false := by
    simp only [verify_once]
    norm_num [h7]
  refine ⟨by decide, by decide, by decide, by norm_num, by decide, ?_, hv, ?_⟩
  · unfold signature_compress
    rw [h93]
    decide
  · exact verify_loop_succ_false hv 999999

/-- Claim C9 (code bug): the checked-read pattern of the prime-generation and
element-sampling reads retries interrupted reads and aborts on any other
failure, but the one-byte root-selection read at rw.c line 247 inspects
nothing: on a failed (or interrupted) read the program continues with the
stale byte.  First two conjuncts: the checked pattern aborts on failure and
retries EINTR; last two: the root read silently keeps the stale value 2 on a
failed and on an interrupted read. -/
theorem c9_root_read_unchecked :
    retry_read (fun _ => ReadRes.fail) (fun _ => 0) 0 5 = none ∧
    retry_read (fun k => if k = 0 then ReadRes.eintr else ReadRes.ok) (fun _ => 7) 0 5
      = some (7, 2) ∧
    root_read (fun _ => ReadRes.fail) (fun _ => 0) 2 0 = 2 ∧
    root_read (fun _ => ReadRes.eintr) (fun _ => 9) 2 0 = 2 := by
  refine ⟨?_, ?_, by decide, by decide⟩ <;> decide

/-- Claim C10 counterexample: at (s, n) = (6, 12) — satisfying 0 < s < n —
the continued-fraction loop does not exit: the first division is exact
(12 = 2·6) with convergent 2 below isqrt 12 = 3, so the next iteration calls
`mpz_fdiv_qr` with divisor 0 and the program dies on SIGFPE (`divzero`). -/
theorem c10_counterexample :
    (0 : ℤ) < 6 ∧ (6 : ℤ) < 12 ∧ signature_compress 20 6 12 = CResult.divzero := by
  have h12 : mpz_sqrt 12 = 3 := by unfold mpz_sqrt; norm_num
  refine ⟨by norm_num, by norm_num, ?_⟩
  unfold signature_compress
  rw [h12]
  decide

/-! ### The prime generator (claim C7) -/

lemma land_two_iff : ∀ m : ℕ, m < 8 → ((m &&& 2 ≠ 0) ↔ m / 2 % 2 = 1) := by decide

lemma land_four_iff : ∀ m : ℕ, m < 8 → ((m &&& 4 ≠ 0) ↔ m / 4 % 2 = 1) := by decide

lemma force_bits_mod8 (x mod8 : ℕ) (h : mod8 < 8) :
    force_bits x mod8 % 8 = 2 * (mod8 / 2) + 1 := by
  have a1 := land_two_iff mod8 h
  have a2 := land_four_iff mod8 h
  have p2 : (2 : ℕ) ^ 2 = 4 := by norm_num
  simp only [force_bits, mpz_setbit, mpz_clrbit, pow_zero, pow_one, p2, Nat.div_one,
    a1, a2]
  split_ifs <;> omega

lemma init_random_prime_some (isPrime : ℕ → Bool) (outcome : ℕ → ReadRes)
    (data : ℕ → ℕ) (mod8 : ℕ) (h8 : mod8 < 8) :
    ∀ (fuel k : ℕ) (n : ℕ),
      init_random_prime isPrime outcome data mod8 k fuel = some n →
      isPrime n = true ∧ n % 8 = 2 * (mod8 / 2) + 1 := by
  intro fuel
  induction fuel with
  | zero => intro k n h; simp [init_random_prime] at h
  | succ fuel ih =>
    intro k n h
    rw [init_random_prime] at h
    cases ho : outcome k with
    | eintr => rw [ho] at h; exact ih _ _ h
    | fail => rw [ho] at h; simp at h
    | ok =>
      rw [ho] at h
      simp only at h
      split_ifs at h with hp
      · injection h with h1
        subst h1
        exact ⟨hp, force_bits_mod8 _ _ h8⟩
      · exact ih _ _ h

/-- Claim C7 (amended: the accepted candidate is odd, passes the primality
oracle, and has `n % 8` equal to `mod8` with bit 0 forced set — which is
`mod8` itself exactly when `mod8` is odd, as in both calls the program makes
(3 and 7); an even `mod8` request cannot be honored because the generator
always sets bit 0). -/
theorem c7_prime_mod8 (isPrime : ℕ → Bool) (outcome : ℕ → ReadRes) (data : ℕ → ℕ)
    (mod8 k fuel n : ℕ) (h8 : mod8 < 8) (hodd : mod8 % 2 = 1)
    (h : init_random_prime isPrime outcome data mod8 k fuel = some n) :
    isPrime n = true ∧ n % 2 = 1 ∧ n % 8 = mod8 := by
  obtain ⟨h1, h2⟩ := init_random_prime_some isPrime outcome data mod8 h8 fuel k n h
  exact ⟨h1, by omega, by omega⟩

theorem c7_witness :
    init_random_prime (fun n => decide (n = 3)) (fun _ => ReadRes.ok) (fun _ => 0) 3 0 1
      = some 3 ∧
    ((fun n : ℕ => decide (n = 3)) 3 = true ∧ (3 : ℕ) % 2 = 1 ∧ (3 : ℕ) % 8 = 3) :=
  ⟨by decide,
    c7_prime_mod8 (fun n => decide (n = 3)) (fun _ => ReadRes.ok) (fun _ => 0) 3 0 1 3
      (by decide) (by decide) (by decide)⟩

theorem c7_counterexample :
    init_random_prime (fun n => decide (n = 3)) (fun _ => ReadRes.ok) (fun _ => 2) 2 0 1
      = some 3 ∧ (3 : ℕ) % 8 ≠ 2 := by decide

/-! ### Number-theoretic facts (claims C1, C4, C5, C6) -/

lemma intCast_emod_zmod (a : ℤ) (P : ℕ) :
    ((a % (P : ℤ) : ℤ) : ZMod P) = (a : ZMod P) :=
  (ZMod.intCast_eq_intCast_iff _ _ _).mpr (Int.emod_emod_of_dvd a dvd_rfl)

lemma isQR_iff_isSquare {P : ℕ} (hP : 0 < P) (e : ℤ) :
    isQR e (P : ℤ) ↔ IsSquare ((e : ℤ) : ZMod P) := by
  haveI : NeZero P := ⟨hP.ne'⟩
  constructor
  · rintro ⟨x, hx⟩
    refine ⟨(x : ZMod P), ?_⟩
    have h2 : ((x * x : ℤ) : ZMod P) = ((e : ℤ) : ZMod P) :=
      (ZMod.intCast_eq_intCast_iff _ _ _).mpr hx
    push_cast at h2
    exact h2.symm
  · rintro ⟨r, hr⟩
    refine ⟨(ZMod.cast r : ℤ), ?_⟩
    have h1 : (((ZMod.cast r : ℤ) * (ZMod.cast r : ℤ) : ℤ) : ZMod P)
        = ((e : ℤ) : ZMod P) := by
      push_cast
      exact hr.symm
    exact (ZMod.intCast_eq_intCast_iff _ _ _).mp h1

lemma pow_quarter_sq {P : ℕ} [Fact P.Prime] (m : ℕ) (hm : 4 * m = P + 1)
    (a : ZMod P) (ha : IsSquare a) : a ^ m * a ^ m = a := by
  obtain ⟨y, rfl⟩ := ha
  have hP2 : 2 ≤ P := (Fact.out : P.Prime).two_le
  by_cases hy : y = 0
  · subst hy
    rw [mul_zero]
    simp [zero_pow (by omega : m ≠ 0)]
  · have h1 : y ^ (P - 1) = 1 := ZMod.pow_card_sub_one_eq_one hy
    have h2 : (y * y) ^ m * (y * y) ^ m = y ^ (4 * m) := by
      calc (y * y) ^ m * (y * y) ^ m = (y * y) ^ (m + m) := (pow_add _ _ _).symm
        _ = (y ^ 2) ^ (m + m) := by rw [sq]
        _ = y ^ (2 * (m + m)) := (pow_mul _ _ _).symm
        _ = y ^ (4 * m) := by rw [(by omega : 2 * (m + m) = 4 * m)]
    rw [h2, hm, (by omega : P + 1 = (P - 1) + 2), pow_add, h1, one_mul, sq]

lemma powm_root_sq {p : ℤ} (hp : Prime p) (hp1 : 1 < p) (e : ℤ) (m : ℕ)
    (hm : 4 * (m : ℤ) = p + 1) (he : isQR e p) :
    (e ^ m % p) * (e ^ m % p) ≡ e [ZMOD p] := by
  have hcast : ((p.natAbs : ℕ) : ℤ) = p := Int.natAbs_of_nonneg (by omega)
  haveI : Fact p.natAbs.Prime := ⟨Int.prime_iff_natAbs_prime.mp hp⟩
  have hP0 : 0 < p.natAbs := by omega
  have hqr : IsSquare ((e : ℤ) : ZMod p.natAbs) := by
    rw [← hcast] at he
    exact (isQR_iff_isSquare hP0 e).mp he
  have hm4 : 4 * m = p.natAbs + 1 := by omega
  have hcore := pow_quarter_sq m hm4 ((e : ℤ) : ZMod p.natAbs) hqr
  rw [← hcast]
  apply (ZMod.intCast_eq_intCast_iff _ _ _).mp
  rw [Int.cast_mul]
  rw [← hcast] at *
  rw [intCast_emod_zmod]
  push_cast
  calc ((e : ZMod p.natAbs) ^ m) * ((e : ZMod p.natAbs) ^ m)
      = (e : ZMod p.natAbs) := hcore

/-- Claim C6: for a prime `p ≡ 3 (mod 4)` and the precomputed exponent
`power = (p+1)/4`, `is_quadratic_residue e p power` returns non-zero iff some
`x` satisfies `x² ≡ e (mod p)`; it decides this by computing
`r = e^power mod p` and testing `r² ≡ e (mod p)`. -/
theorem c6_oracle_correct (e p power : ℤ) (hp : Prime p) (hp1 : 1 < p)
    (hp4 : p % 4 = 3) (hpow : power = (p + 1) / 4) :
    is_quadratic_residue e p power = true ↔ isQR e p := by
  have hm : 4 * ((power.toNat : ℕ) : ℤ) = p + 1 := by omega
  simp only [is_quadratic_residue, mpz_powm, decide_eq_true_eq]
  constructor
  · intro h
    exact ⟨e ^ power.toNat % p, h⟩
  · intro h
    exact powm_root_sq hp hp1 e power.toNat hm h

theorem c6_witness : is_quadratic_residue 4 7 2 = true ↔ isQR 4 7 :=
  c6_oracle_correct 4 7 2 (by rw [Int.prime_iff_natAbs_prime]; norm_num)
    (by norm_num) (by norm_num) (by norm_num)

lemma bezout_of_distinct_primes {p q : ℤ} (hp : Prime p) (hq : Prime q)
    (hp1 : 1 < p) (hq1 : 1 < q) (hne : p ≠ q) :
    (xgcd p q).1 * p + (xgcd p q).2 * q = 1 := by
  have hPp : ((p.natAbs : ℕ) : ℤ) = p := Int.natAbs_of_nonneg (by omega)
  have hQq : ((q.natAbs : ℕ) : ℤ) = q := Int.natAbs_of_nonneg (by omega)
  have hPprime : p.natAbs.Prime := Int.prime_iff_natAbs_prime.mp hp
  have hQprime : q.natAbs.Prime := Int.prime_iff_natAbs_prime.mp hq
  have hPQ : p.natAbs ≠ q.natAbs := fun hEq => hne (by rw [← hPp, ← hQq, hEq])
  have hco : Nat.Coprime p.natAbs q.natAbs :=
    (Nat.coprime_primes hPprime hQprime).mpr hPQ
  have hbez := Nat.gcd_eq_gcd_ab p.natAbs q.natAbs
  rw [Nat.Coprime.gcd_eq_one hco] at hbez
  simp only [xgcd]
  push_cast at hbez
  rw [abs_of_pos (by omega : (0:ℤ) < p), abs_of_pos (by omega : (0:ℤ) < q)] at hbez
  linarith [hbez]

/-- Claim C5 (spec-modelled: `xgcd` is absent from `src/`, so the extended GCD
is modelled from spec §4.2): for distinct primes `p, q`, the Group Builder
coefficients `u = u0*p`, `v = v0*q` satisfy `u % p = 0`, `u % q = 1`,
`v % p = 1`, `v % q = 0`, and `(u + v) % n = 1` where `n = p*q`. -/
theorem c5_crt_idempotents (p q : ℤ) (hp : Prime p) (hq : Prime q)
    (hp1 : 1 < p) (hq1 : 1 < q) (hne : p ≠ q) :
    (group_build p q).2.1 % p = 0 ∧ (group_build p q).2.1 % q = 1 ∧
    (group_build p q).2.2 % p = 1 ∧ (group_build p q).2.2 % q = 0 ∧
    ((group_build p q).2.1 + (group_build p q).2.2) % (group_build p q).1 = 1 := by
  have hbez := bezout_of_distinct_primes hp hq hp1 hq1 hne
  simp only [group_build]
  set A := (xgcd p q).1 with hA
  set B := (xgcd p q).2 with hB
  have h1mod : (1 : ℤ) % q = 1 := Int.emod_eq_of_lt (by norm_num) hq1
  have h1modp : (1 : ℤ) % p = 1 := Int.emod_eq_of_lt (by norm_num) hp1
  have hn1 : 1 < p * q := by nlinarith
  refine ⟨Int.mul_emod_left A p, ?_, ?_, Int.mul_emod_left B q, ?_⟩
  · have hu : A * p = 1 + (-B) * q := by linarith
    rw [hu, Int.add_mul_emod_self, h1mod]
  · have hv : B * q = 1 + (-A) * p := by linarith
    rw [hv, Int.add_mul_emod_self, h1modp]
  · have huv : A * p + B * q = 1 := hbez
    rw [huv, Int.emod_eq_of_lt (by norm_num) hn1]

theorem c5_witness :
    (group_build 3 7).2.1 % 3 = 0 ∧ (group_build 3 7).2.1 % 7 = 1 ∧
    (group_build 3 7).2.2 % 3 = 1 ∧ (group_build 3 7).2.2 % 7 = 0 ∧
    ((group_build 3 7).2.1 + (group_build 3 7).2.2) % (group_build 3 7).1 = 1 :=
  c5_crt_idempotents 3 7 (by rw [Int.prime_iff_natAbs_prime]; norm_num)
    (by rw [Int.prime_iff_natAbs_prime]; norm_num) (by norm_num) (by norm_num)
    (by norm_num)

lemma crt_square {p q u v e x y : ℤ} (hco : Nat.Coprime p.natAbs q.natAbs)
    (huv : u + v = 1) (hpu : p ∣ u) (hqv : q ∣ v)
    (hx : x * x ≡ e [ZMOD p]) (hy : y * y ≡ e [ZMOD q]) :
    ((x * v + y * u) % (p * q)) * ((x * v + y * u) % (p * q)) ≡ e [ZMOD p * q] := by
  have hmod : (x * v + y * u) % (p * q) ≡ x * v + y * u [ZMOD p * q] :=
    Int.emod_emod_of_dvd _ dvd_rfl
  have key : (x * v + y * u) * (x * v + y * u) ≡ e [ZMOD p * q] := by
    apply (Int.modEq_and_modEq_iff_modEq_mul hco).mp
    constructor
    · have hu0 : u ≡ 0 [ZMOD p] := Int.modEq_zero_iff_dvd.mpr hpu
      have hv1 : v ≡ 1 [ZMOD p] := by
        have hveq : v = 1 - u := by linarith
        calc v = 1 - u := hveq
          _ ≡ 1 - 0 [ZMOD p] := Int.ModEq.sub (Int.ModEq.refl 1) hu0
          _ = 1 := by ring
      have hxv : x * v + y * u ≡ x [ZMOD p] := by
        calc x * v + y * u
            ≡ x * 1 + y * 0 [ZMOD p] :=
              Int.ModEq.add (Int.ModEq.mul (Int.ModEq.refl x) hv1)
                (Int.ModEq.mul (Int.ModEq.refl y) hu0)
          _ = x := by ring
      exact (hxv.mul hxv).trans hx
    · have hv0 : v ≡ 0 [ZMOD q] := Int.modEq_zero_iff_dvd.mpr hqv
      have hu1 : u ≡ 1 [ZMOD q] := by
        have hueq : u = 1 - v := by linarith
        calc u = 1 - v := hueq
          _ ≡ 1 - 0 [ZMOD q] := Int.ModEq.sub (Int.ModEq.refl 1) hv0
          _ = 1 := by ring
      have hyu : x * v + y * u ≡ y [ZMOD q] := by
        calc x * v + y * u
            ≡ x * 0 + y * 1 [ZMOD q] :=
              Int.ModEq.add (Int.ModEq.mul (Int.ModEq.refl x) hv0)
                (Int.ModEq.mul (Int.ModEq.refl y) hu1)
          _ = y := by ring
      exact (hyu.mul hyu).trans hy
  exact (hmod.mul hmod).trans key

/-- Claim C1: for primes `p ≡ 3 (mod 8)`, `q ≡ 7 (mod 8)`, `n = p*q`, the CRT
coefficients from the Group Builder, and any tweaked element `e` (reduced mod
`n`) that is a quadratic residue mod both `p` and `q`, the Root Extractor
signature `s = (± e^((p+1)/4) mod p)·v + (± e^((q+1)/4) mod q)·u mod n` — for
any of the four sign choices selected by the two root bits — satisfies
`s*s mod n = e`. -/
theorem c1_signing_correct (p q e : ℤ) (root : ℕ)
    (hp : Prime p) (hq : Prime q) (hp1 : 1 < p) (hq1 : 1 < q)
    (hp8 : p % 8 = 3) (hq8 : q % 8 = 7)
    (he0 : 0 ≤ e) (he1 : e < p * q) (hep : isQR e p) (heq : isQR e q) :
    root_extract e p q (group_build p q).2.1 (group_build p q).2.2 (p * q) root *
      root_extract e p q (group_build p q).2.1 (group_build p q).2.2 (p * q) root
      % (p * q) = e := by
  have hne : p ≠ q := by omega
  have hbez := bezout_of_distinct_primes hp hq hp1 hq1 hne
  have hco : Nat.Coprime p.natAbs q.natAbs := by
    have hPprime : p.natAbs.Prime := Int.prime_iff_natAbs_prime.mp hp
    have hQprime : q.natAbs.Prime := Int.prime_iff_natAbs_prime.mp hq
    refine (Nat.coprime_primes hPprime hQprime).mpr (fun hEq => hne ?_)
    have hPp : ((p.natAbs : ℕ) : ℤ) = p := Int.natAbs_of_nonneg (by omega)
    have hQq : ((q.natAbs : ℕ) : ℤ) = q := Int.natAbs_of_nonneg (by omega)
    rw [← hPp, ← hQq, hEq]
  have h4 : (2 : ℤ) ^ 2 = 4 := by norm_num
  have hmp : 4 * (((mpz_cdiv_q_2exp (p + 1) 2).toNat : ℕ) : ℤ) = p + 1 := by
    simp only [mpz_cdiv_q_2exp, h4]
    omega
  have hmq : 4 * (((mpz_cdiv_q_2exp (q + 1) 2).toNat : ℕ) : ℤ) = q + 1 := by
    simp only [mpz_cdiv_q_2exp, h4]
    omega
  have hproot := powm_root_sq hp hp1 e _ hmp hep
  have hqroot := powm_root_sq hq hq1 e _ hmq heq
  simp only [root_extract, mpz_powm, group_build]
  set PR := e ^ (mpz_cdiv_q_2exp (p + 1) 2).toNat % p with hPR
  set QR := e ^ (mpz_cdiv_q_2exp (q + 1) 2).toNat % q with hQR
  set x := if root &&& 1 ≠ 0 then -PR else PR with hxdef
  set y := if root &&& 2 ≠ 0 then -QR else QR with hydef
  have hx : x * x ≡ e [ZMOD p] := by
    rw [hxdef]
    split_ifs
    · rw [neg_mul_neg]; exact hproot
    · exact hproot
  have hy : y * y ≡ e [ZMOD q] := by
    rw [hydef]
    split_ifs
    · rw [neg_mul_neg]; exact hqroot
    · exact hqroot
  have hpu : p ∣ (xgcd p q).1 * p := dvd_mul_left p _
  have hqv : q ∣ (xgcd p q).2 * q := dvd_mul_left q _
  have hkey := crt_square hco hbez hpu hqv hx hy
  have h5 : ((x * ((xgcd p q).2 * q) + y * ((xgcd p q).1 * p)) % (p * q)) *
      ((x * ((xgcd p q).2 * q) + y * ((xgcd p q).1 * p)) % (p * q)) % (p * q)
      = e % (p * q) := hkey
  rw [Int.emod_eq_of_lt he0 he1] at h5
  exact h5

theorem c1_witness :
    root_extract 4 3 7 (group_build 3 7).2.1 (group_build 3 7).2.2 (3 * 7) 0 *
      root_extract 4 3 7 (group_build 3 7).2.1 (group_build 3 7).2.2 (3 * 7) 0
      % (3 * 7) = 4 :=
  c1_signing_correct 3 7 4 0 (by rw [Int.prime_iff_natAbs_prime]; norm_num)
    (by rw [Int.prime_iff_natAbs_prime]; norm_num) (by norm_num) (by norm_num)
    (by norm_num) (by norm_num) (by norm_num) (by norm_num)
    ⟨1, by decide⟩ ⟨2, by decide⟩

lemma not_isSquare_mul {F : Type} [Field F] [Fintype F] [DecidableEq F]
    {a b : F} (ha : ¬IsSquare a) (hb : ¬IsSquare b) : IsSquare (a * b) := by
  have ha0 : a ≠ 0 := fun h => ha (h ▸ ⟨0, by ring⟩)
  have hb0 : b ≠ 0 := fun h => hb (h ▸ ⟨0, by ring⟩)
  have h1 : quadraticChar F a = -1 := quadraticChar_neg_one_iff_not_isSquare.mpr ha
  have h2 : quadraticChar F b = -1 := quadraticChar_neg_one_iff_not_isSquare.mpr hb
  have h3 : quadraticChar F (a * b) = 1 := by rw [map_mul, h1, h2]; ring
  exact (quadraticChar_one_iff_isSquare (mul_ne_zero ha0 hb0)).mp h3

lemma isQR_emod (x n p : ℤ) (hd : p ∣ n) : isQR (x % n) p ↔ isQR x p := by
  unfold isQR
  rw [Int.emod_emod_of_dvd x hd]

/-- Claim C4: for primes `p ≡ 3 (mod 8)` and `q ≡ 7 (mod 8)`, any element `e`
with residue pair `(a, b)` (`a` iff `e` is a QR mod `p`, `b` iff mod `q`), the
tweak — multiply by 2 when `a ≠ b` (flipping `a`), then negate when the
updated `a` is false, then reduce mod `n = p*q` when anything was applied —
yields an element that is a quadratic residue mod `p` and mod `q`. -/
theorem c4_tweak_qr (p q e : ℤ) (a b : Bool)
    (hp : Prime p) (hq : Prime q) (hp1 : 1 < p) (hq1 : 1 < q)
    (hp8 : p % 8 = 3) (hq8 : q % 8 = 7)
    (ha : a = true ↔ isQR e p) (hb : b = true ↔ isQR e q) :
    isQR (residue_tweak (p * q) e a b) p ∧ isQR (residue_tweak (p * q) e a b) q := by
  set P := p.natAbs with hPdef
  set Q := q.natAbs with hQdef
  have hPp : ((P : ℕ) : ℤ) = p := Int.natAbs_of_nonneg (by omega)
  have hQq : ((Q : ℕ) : ℤ) = q := Int.natAbs_of_nonneg (by omega)
  haveI : Fact P.Prime := ⟨Int.prime_iff_natAbs_prime.mp hp⟩
  haveI : Fact Q.Prime := ⟨Int.prime_iff_natAbs_prime.mp hq⟩
  have hP0 : 0 < P := by omega
  have hQ0 : 0 < Q := by omega
  have hP8 : P % 8 = 3 := by omega
  have hQ8 : Q % 8 = 7 := by omega
  have hiffp : ∀ z : ℤ, isQR z p ↔ IsSquare ((z : ℤ) : ZMod P) := fun z => by
    rw [← hPp]; exact isQR_iff_isSquare hP0 z
  have hiffq : ∀ z : ℤ, isQR z q ↔ IsSquare ((z : ℤ) : ZMod Q) := fun z => by
    rw [← hQq]; exact isQR_iff_isSquare hQ0 z
  have h2p : ¬IsSquare (2 : ZMod P) := by
    rw [ZMod.exists_sq_eq_two_iff (by omega : P ≠ 2)]
    omega
  have hm1p : ¬IsSquare (-1 : ZMod P) := by
    rw [ZMod.exists_sq_eq_neg_one_iff]
    omega
  have h2q : IsSquare (2 : ZMod Q) := by
    rw [ZMod.exists_sq_eq_two_iff (by omega : Q ≠ 2)]
    omega
  have hm1q : ¬IsSquare (-1 : ZMod Q) := by
    rw [ZMod.exists_sq_eq_neg_one_iff]
    omega
  cases a <;> cases b
  · -- (false, false): negate only
    have hnp : ¬isQR e p := fun h => Bool.false_ne_true (ha.mpr h)
    have hnq : ¬isQR e q := fun h => Bool.false_ne_true (hb.mpr h)
    have hnep : ¬IsSquare ((e : ℤ) : ZMod P) := fun hS => hnp ((hiffp e).mpr hS)
    have hneq : ¬IsSquare ((e : ℤ) : ZMod Q) := fun hS => hnq ((hiffq e).mpr hS)
    have ht : residue_tweak (p * q) e false false = (-e) % (p * q) := by
      simp [residue_tweak]
    rw [ht, isQR_emod _ _ _ (dvd_mul_right p q), isQR_emod _ _ _ (dvd_mul_left q p),
      hiffp, hiffq]
    constructor
    · push_cast
      rw [(by ring : -(e : ZMod P) = (-1) * (e : ZMod P))]
      exact not_isSquare_mul hm1p hnep
    · push_cast
      rw [(by ring : -(e : ZMod Q) = (-1) * (e : ZMod Q))]
      exact not_isSquare_mul hm1q hneq
  · -- (false, true): double only
    have hnp : ¬isQR e p := fun h => Bool.false_ne_true (ha.mpr h)
    have hqr : isQR e q := hb.mp rfl
    have hnep : ¬IsSquare ((e : ℤ) : ZMod P) := fun hS => hnp ((hiffp e).mpr hS)
    have heq2 : IsSquare ((e : ℤ) : ZMod Q) := (hiffq e).mp hqr
    have ht : residue_tweak (p * q) e false true = (2 * e) % (p * q) := by
      simp [residue_tweak]
    rw [ht, isQR_emod _ _ _ (dvd_mul_right p q), isQR_emod _ _ _ (dvd_mul_left q p),
      hiffp, hiffq]
    constructor
    · push_cast
      exact not_isSquare_mul h2p hnep
    · push_cast
      exact h2q.mul heq2
  · -- (true, false): double, then negate
    have hqrp : isQR e p := ha.mp rfl
    have hnq : ¬isQR e q := fun h => Bool.false_ne_true (hb.mpr h)
    have hep2 : IsSquare ((e : ℤ) : ZMod P) := (hiffp e).mp hqrp
    have hneq : ¬IsSquare ((e : ℤ) : ZMod Q) := fun hS => hnq ((hiffq e).mpr hS)
    have ht : residue_tweak (p * q) e true false = (2 * -e) % (p * q) := by
      simp [residue_tweak]
    rw [ht, isQR_emod _ _ _ (dvd_mul_right p q), isQR_emod _ _ _ (dvd_mul_left q p),
      hiffp, hiffq]
    constructor
    · push_cast
      rw [(by ring : (2 : ZMod P) * -(e : ZMod P) = ((-1) * 2) * (e : ZMod P))]
      exact (not_isSquare_mul hm1p h2p).mul hep2
    · push_cast
      rw [(by ring : (2 : ZMod Q) * -(e : ZMod Q) = 2 * ((-1) * (e : ZMod Q)))]
      exact h2q.mul (not_isSquare_mul hm1q hneq)
  · -- (true, true): no transform
    have ht : residue_tweak (p * q) e true true = e := by
      simp [residue_tweak]
    rw [ht]
    exact ⟨ha.mp rfl, hb.mp rfl⟩

lemma not_isQR_5_3 : ¬isQR 5 3 := by
  rintro ⟨x, hx⟩
  rw [Int.mul_emod] at hx
  have h3 : x % 3 = 0 ∨ x % 3 = 1 ∨ x % 3 = 2 := by omega
  rcases h3 with h | h | h <;> rw [h] at hx <;> norm_num at hx

lemma not_isQR_5_7 : ¬isQR 5 7 := by
  rintro ⟨x, hx⟩
  rw [Int.mul_emod] at hx
  have h7 : x % 7 = 0 ∨ x % 7 = 1 ∨ x % 7 = 2 ∨ x % 7 = 3 ∨ x % 7 = 4 ∨ x % 7 = 5 ∨
      x % 7 = 6 := by omega
  rcases h7 with h | h | h | h | h | h | h <;> rw [h] at hx <;> norm_num at hx

theorem c4_witness :
    isQR (residue_tweak (3 * 7) 5 false false) 3 ∧
    isQR (residue_tweak (3 * 7) 5 false false) 7 :=
  c4_tweak_qr 3 7 5 false false (by rw [Int.prime_iff_natAbs_prime]; norm_num)
    (by rw [Int.prime_iff_natAbs_prime]; norm_num) (by norm_num) (by norm_num)
    (by norm_num) (by norm_num)
    ⟨fun h => absurd h (by norm_num), fun h => absurd h not_isQR_5_3⟩
    ⟨fun h => absurd h (by norm_num), fun h => absurd h not_isQR_5_7⟩

/-! ### Termination of the compression loop on coprime inputs (claim C10) -/

lemma compress_go_exists_out (root N : ℤ) (hrootN : root ≤ N) :
    ∀ (meas : ℕ) (vs : ℤ × ℤ × ℤ × ℤ) (s n : ℤ) (i : ℕ) (d v : ℤ),
      ((i % 2 = 1 ∧ n = d ∧ s = v) ∨ (i % 2 = 0 ∧ s = d ∧ n = v)) →
      0 < v → v < d →
      1 ≤ vsget vs i → 0 ≤ vsget vs ((i + 3) % 4) →
      d * vsget vs i + v * vsget vs ((i + 3) % 4) = N →
      IsCoprime v d →
      (d + v).toNat ≤ meas →
      ∃ fuel z a2 b2, compress_go root fuel vs s n i = CResult.out z a2 b2 := by
  intro meas
  induction meas with
  | zero =>
    intro vs s n i d v _ hv hvd _ _ _ _ hmeas
    omega
  | succ meas ih =>
    intro vs s n i d v hor hv hvd hg1 hg2 hid hcop hmeas
    rcases hor with ⟨hpar, rfl, rfl⟩ | ⟨hpar, rfl, rfl⟩
    · -- i odd: the step divides n by s (even branch of the loop body)
      have hs0 : s ≠ 0 := by omega
      set p1 := vsget vs i with hp1def
      set p2 := vsget vs ((i + 3) % 4) with hp2def
      have hcf : 1 ≤ n / s := by
        rw [Int.le_ediv_iff_mul_le hv]
        omega
      have hrem0 : 0 ≤ n % s := Int.emod_nonneg n hs0
      have hremlt : n % s < s := Int.emod_lt_of_pos n hv
      have hdiv : s * (n / s) + n % s = n := Int.ediv_add_emod n s
      set vj := vsget vs (((i + 1) % 4 + 3) % 4) * (n / s) +
        vsget vs (((i + 1) % 4 + 2) % 4) with hvjdef
      have hidx1 : vsget vs (((i + 1) % 4 + 3) % 4) = p1 := vsget_congr vs (by omega)
      have hidx2 : vsget vs (((i + 1) % 4 + 2) % 4) = p2 := vsget_congr vs (by omega)
      have hvjval : vj = p1 * (n / s) + p2 := by rw [hvjdef, hidx1, hidx2]
      have hvj1 : 1 ≤ vj := by
        rw [hvjval]
        have h1 : 1 * 1 ≤ p1 * (n / s) := mul_le_mul hg1 hcf (by norm_num) (by omega)
        linarith
      have hnewid : s * vj + (n % s) * p1 = N := by
        rw [hvjval]
        linear_combination p1 * hdiv + hid
      have hcop0 : IsCoprime (n % s) s := by
        have h2 := IsCoprime.add_mul_left_left hcop.symm (-(n / s))
        rwa [show n + s * -(n / s) = n % s by rw [Int.emod_def]; ring] at h2
      by_cases hexit : vj < root
      · -- the loop keeps going: the remainder must be positive, else the
        -- convergent would already be N ≥ root
        have hrpos : 0 < n % s := by
          rcases lt_or_eq_of_le hrem0 with h | h
          · exact h
          · exfalso
            rw [← h] at hcop0
            have hunit : IsUnit s := isCoprime_zero_left.mp hcop0
            have hs1 : s = 1 := by
              rcases Int.isUnit_iff.mp hunit with h1 | h1
              · exact h1
              · omega
            rw [← h, hs1] at hnewid
            have : vj = N := by linarith
            omega
        have hnew_p1 : vsget (vsset vs ((i + 1) % 4) vj) ((i + 1) % 4) = vj :=
          vsget_vsset_self vs ((i + 1) % 4) vj
        have hnew_p2 : vsget (vsset vs ((i + 1) % 4) vj) (((i + 1) % 4 + 3) % 4) = p1 := by
          rw [vsget_vsset_ne _ (by omega) _]
          exact hidx1
        obtain ⟨fuel0, z, a2, b2, hrec⟩ :=
          ih (vsset vs ((i + 1) % 4) vj) s (n % s) ((i + 1) % 4) s (n % s)
            (Or.inr ⟨by omega, rfl, rfl⟩) hrpos hremlt
            (by rw [hnew_p1]; exact hvj1)
            (by rw [hnew_p2]; omega)
            (by rw [hnew_p1, hnew_p2]; exact hnewid)
            hcop0
            (by omega)
        refine ⟨fuel0 + 1, z, a2, b2, ?_⟩
        show compress_go root (fuel0 + 1) vs s n i = CResult.out z a2 b2
        simp only [compress_go]
        rw [if_neg (by omega : ¬((i + 1) % 4 % 2 = 1)), if_neg hs0, ← hvjdef,
          if_pos hexit]
        exact hrec
      · refine ⟨1, vsget (vsset vs ((i + 1) % 4) vj) (((i + 1) % 4 + 3) % 4), s,
          n % s, ?_⟩
        show compress_go root 1 vs s n i = _
        simp only [compress_go]
        rw [if_neg (by omega : ¬((i + 1) % 4 % 2 = 1)), if_neg hs0, ← hvjdef,
          if_neg hexit]
    · -- i even: the step divides s by n (odd branch of the loop body)
      have hn0 : n ≠ 0 := by omega
      set p1 := vsget vs i with hp1def
      set p2 := vsget vs ((i + 3) % 4) with hp2def
      have hcf : 1 ≤ s / n := by
        rw [Int.le_ediv_iff_mul_le hv]
        omega
      have hrem0 : 0 ≤ s % n := Int.emod_nonneg s hn0
      have hremlt : s % n < n := Int.emod_lt_of_pos s hv
      have hdiv : n * (s / n) + s % n = s := Int.ediv_add_emod s n
      set vj := vsget vs (((i + 1) % 4 + 3) % 4) * (s / n) +
        vsget vs (((i + 1) % 4 + 2) % 4) with hvjdef
      have hidx1 : vsget vs (((i + 1) % 4 + 3) % 4) = p1 := vsget_congr vs (by omega)
      have hidx2 : vsget vs (((i + 1) % 4 + 2) % 4) = p2 := vsget_congr vs (by omega)
      have hvjval : vj = p1 * (s / n) + p2 := by rw [hvjdef, hidx1, hidx2]
      have hvj1 : 1 ≤ vj := by
        rw [hvjval]
        have h1 : 1 * 1 ≤ p1 * (s / n) := mul_le_mul hg1 hcf (by norm_num) (by omega)
        linarith
      have hnewid : n * vj + (s % n) * p1 = N := by
        rw [hvjval]
        linear_combination p1 * hdiv + hid
      have hcop0 : IsCoprime (s % n) n := by
        have h2 := IsCoprime.add_mul_left_left hcop.symm (-(s / n))
        rwa [show s + n * -(s / n) = s % n by rw [Int.emod_def]; ring] at h2
      by_cases hexit : vj < root
      · have hrpos : 0 < s % n := by
          rcases lt_or_eq_of_le hrem0 with h | h
          · exact h
          · exfalso
            rw [← h] at hcop0
            have hunit : IsUnit n := isCoprime_zero_left.mp hcop0
            have hn1 : n = 1 := by
              rcases Int.isUnit_iff.mp hunit with h1 | h1
              · exact h1
              · omega
            rw [← h, hn1] at hnewid
            have : vj = N := by linarith
            omega
        have hnew_p1 : vsget (vsset vs ((i + 1) % 4) vj) ((i + 1) % 4) = vj :=
          vsget_vsset_self vs ((i + 1) % 4) vj
        have hnew_p2 : vsget (vsset vs ((i + 1) % 4) vj) (((i + 1) % 4 + 3) % 4) = p1 := by
          rw [vsget_vsset_ne _ (by omega) _]
          exact hidx1
        obtain ⟨fuel0, z, a2, b2, hrec⟩ :=
          ih (vsset vs ((i + 1) % 4) vj) (s % n) n ((i + 1) % 4) n (s % n)
            (Or.inl ⟨by omega, rfl, rfl⟩) hrpos hremlt
            (by rw [hnew_p1]; exact hvj1)
            (by rw [hnew_p2]; omega)
            (by rw [hnew_p1, hnew_p2]; exact hnewid)
            hcop0
            (by omega)
        refine ⟨fuel0 + 1, z, a2, b2, ?_⟩
        show compress_go root (fuel0 + 1) vs s n i = CResult.out z a2 b2
        simp only [compress_go]
        rw [if_pos (by omega : (i + 1) % 4 % 2 = 1), if_neg hn0, ← hvjdef,
          if_pos hexit]
        exact hrec
      · refine ⟨1, vsget (vsset vs ((i + 1) % 4) vj) (((i + 1) % 4 + 3) % 4), s % n,
          n, ?_⟩
        show compress_go root 1 vs s n i = _
        simp only [compress_go]
        rw [if_pos (by omega : (i + 1) % 4 % 2 = 1), if_neg hn0, ← hvjdef,
          if_neg hexit]

/-- Claim C10 (amended: the loop terminates — with the final convergent
reaching `isqrt n` — for every `0 < s < n` with `gcd(s, n) = 1`; without the
coprimality condition the remainder chain can reach zero while all convergents
are still below `isqrt n`, and the next division is by zero, killing the
process with SIGFPE, as at `(s, n) = (6, 12)`).  The precondition `s > 0` is
required because the first step divides `n` by `s`. -/
theorem c10_terminates_of_coprime (s n : ℤ) (hs : 0 < s) (hsn : s < n)
    (hco : Int.gcd s n = 1) :
    ∃ fuel z a b, signature_compress fuel s n = CResult.out z a b := by
  refine compress_go_exists_out (mpz_sqrt n) n ?_ ((n + s).toNat) (0, 1, 0, 0)
    s n 1 n s (Or.inl ⟨by norm_num, rfl, rfl⟩) hs hsn ?_ ?_ ?_ ?_ ?_
  · unfold mpz_sqrt
    exact int_sqrt_le_self (by omega)
  · simp [vsget]
  · simp [vsget]
  · simp [vsget]
  · exact Int.gcd_eq_one_iff_coprime.mp hco
  · omega

theorem c10_witness :
    ∃ fuel z a b, signature_compress fuel 16 21 = CResult.out z a b :=
  c10_terminates_of_coprime 16 21 (by norm_num) (by norm_num) (by norm_num)
